import Mathlib

/-!
# Verification of the Anatree data structure

A shallow embedding of `anatree/anatree.h`: a binary decision tree storing a
set of words (lists of symbols), keyed by the sorted copy of each word, with
anagram / sub-anagram queries and two `keys` traversals.

Symbols are modelled as `Nat` with the default `std::less` comparator; words
are `List Nat`.  The `NIL` sentinel node is modelled as a dedicated
constructor (the header reserves symbol value `0` as `NIL` and its documented
precondition excludes `NIL` from input words).  The `std::unordered_set` of
words held in each node is modelled as a duplicate-free insertion-ordered
list, and `std::unordered_map` as an insertion-ordered association list.
-/

abbrev Word : Type := List Nat

/-- A node of the anatree: either a `NIL` placeholder (`m_char == NIL`,
both children absent) or a proper node with a symbol and two children.
Both kinds carry the word set `m_words`. -/
inductive Node : Type where
  | nil (ws : List Word)
  | node (c : Nat) (f : Node) (t : Node) (ws : List Word)
deriving DecidableEq, Repr

namespace Node

/-- The `m_words` member of a node. -/
def words : Node → List Word
  | nil ws => ws
  | node _ _ _ ws => ws

/-- Replace the `m_words` member of a node. -/
def withWords : Node → List Word → Node
  | nil _, ws => nil ws
  | node c f t _, ws => node c f t ws

end Node

/-- `std::unordered_set<word_t>::insert`: add `w` if it is not already a
member (insertion order at the end; iteration order of the C++ set is
unspecified, this picks one). -/
def insertW (ws : List Word) (w : Word) : List Word :=
  if w ∈ ws then ws else ws ++ [w]

/-- `sorted_word`: a copy of `w` with its symbols sorted by the comparator
(`std::sort` with `std::less`; the sorting algorithm is unspecified by the
C++ standard, insertion sort is used here). -/
def sorted_word (w : Word) : Word :=
  List.insertionSort (· ≤ ·) w

/-- Result of `insert__rec`: the (possibly reallocated) subtree root together
with the increments applied to `m_size` and `m_tree_size`. -/
structure InsOut : Type where
  root : Node
  dsize : Nat
  dtree : Nat
deriving DecidableEq, Repr

/-- `insert__rec(p, w, curr, end)`: recursive descent of `insert`,
consuming the sorted key.  The four cases mirror the source: cursor
exhausted; `NIL` node materialized; key symbol sorts before the node's
symbol (a new node is put in front of `p`, taking over `p`'s words);
key symbol sorts after (follow the false child); symbols equal (follow the
true child). -/
def insert__rec (w : Word) : Node → List Nat → InsOut
  | p, [] =>
    ⟨p.withWords (insertW p.words w), if w ∈ p.words then 0 else 1, 0⟩
  | .nil ws, k :: ks =>
    let r := insert__rec w (.nil []) ks
    ⟨.node k (.nil []) r.root ws, r.dsize, r.dtree + 2⟩
  | .node c f t ws, k :: ks =>
    if k < c then
      let r := insert__rec w (.nil []) ks
      ⟨.node k (.node c f t []) r.root ws, r.dsize, r.dtree + 2⟩
    else if c < k then
      let r := insert__rec w f (k :: ks)
      ⟨.node c r.root t ws, r.dsize, r.dtree⟩
    else
      let r := insert__rec w t ks
      ⟨.node c f r.root ws, r.dsize, r.dtree⟩
termination_by p key => (key.length, sizeOf p)
decreasing_by
  · exact Prod.Lex.left _ _ (Nat.lt_succ_self _)
  · exact Prod.Lex.left _ _ (Nat.lt_succ_self _)
  · exact Prod.Lex.right _ (by simp; omega)
  · exact Prod.Lex.left _ _ (Nat.lt_succ_self _)

/-- `find_node__rec`: pure descent towards the node of a sorted key;
`none` models the `m_null` return. -/
def find_node__rec : Node → List Nat → Option Node
  | p, [] => some p
  | .nil _, _ :: _ => none
  | .node c f t _, k :: ks =>
    if k < c then none
    else if c < k then find_node__rec f (k :: ks)
    else find_node__rec t ks
termination_by p key => (key.length, sizeOf p)
decreasing_by
  · exact Prod.Lex.right _ (by simp; omega)
  · exact Prod.Lex.left _ _ (Nat.lt_succ_self _)

/-- Words stored at the node reached by key `q` (empty if no such node):
the word set observed through `find_node__rec`. -/
def wAt (p : Node) (q : List Nat) : List Word :=
  match find_node__rec p q with
  | some n => n.words
  | none => []

/-- Set union as used by `word_set_t::insert(first, last)` on the list
model: append the members of `ys` not already present. -/
def unionW (xs ys : List Word) : List Word :=
  ys.foldl insertW xs

/-- `subanagrams_of__rec`: collects the words of every visited node,
skipping query symbols smaller than the node's symbol, branching into both
children on a match. -/
def subanagrams_of__rec : Node → List Nat → List Word
  | .nil ws, _ => ws
  | .node _ _ _ ws, [] => ws
  | .node c f t ws, k :: ks =>
    if k < c then
      subanagrams_of__rec (.node c f t ws) (List.dropWhile (fun x => decide (x < c)) (k :: ks))
    else if c < k then
      unionW ws (subanagrams_of__rec f (k :: ks))
    else
      unionW (unionW ws (subanagrams_of__rec f ks)) (subanagrams_of__rec t ks)
termination_by p key => (key.length, sizeOf p)
decreasing_by
  · apply Prod.Lex.left
    rw [List.dropWhile_cons_of_pos (by simpa using ‹k < c›)]
    exact Nat.lt_succ_of_le ((List.dropWhile_sublist _).length_le)
  · exact Prod.Lex.right _ (by simp; omega)
  · exact Prod.Lex.left _ _ (Nat.lt_succ_self _)
  · exact Prod.Lex.left _ _ (Nat.lt_succ_self _)

/-- Whether the skip-forward loop of `subanagrams_of__rec` evaluates
`*curr` with `curr == end`: the loop condition
`m_char_comp(*curr, p->m_char) && curr != end` reads `*curr` first, so the
read at the end position happens exactly when every remaining query symbol
after the current one is smaller than the node's symbol. -/
def subOOB : Node → List Nat → Bool
  | .nil _, _ => false
  | .node _ _ _ _, [] => false
  | .node c f t ws, k :: ks =>
    if k < c then
      ks.all (fun x => decide (x < c)) ||
        subOOB (.node c f t ws) (List.dropWhile (fun x => decide (x < c)) (k :: ks))
    else if c < k then
      subOOB f (k :: ks)
    else
      subOOB f ks || subOOB t ks
termination_by p key => (key.length, sizeOf p)
decreasing_by
  · apply Prod.Lex.left
    rw [List.dropWhile_cons_of_pos (by simpa using ‹k < c›)]
    exact Nat.lt_succ_of_le ((List.dropWhile_sublist _).length_le)
  · exact Prod.Lex.right _ (by simp; omega)
  · exact Prod.Lex.left _ _ (Nat.lt_succ_self _)
  · exact Prod.Lex.left _ _ (Nat.lt_succ_self _)

/-- Pick at most one representative from a node's word set
(`*p->m_words.begin()`). -/
def repW : List Word → List Word
  | [] => []
  | w :: _ => [w]

/-- `keys__rec(word_length, p, true_edges)`: the fixed-length `keys`
traversal. -/
def keys__rec_len (len : Nat) : Node → Nat → List Word
  | .nil ws, te => if te = len then repW ws else []
  | .node _ f t ws, te =>
    if te = len then repW ws
    else unionW (keys__rec_len len t (te + 1)) (keys__rec_len len f te)

/-- The anatree: root node plus the `m_size` / `m_tree_size` counters. -/
structure Anatree : Type where
  m_root : Node
  m_size : Nat
  m_tree_size : Nat
deriving DecidableEq, Repr

namespace Anatree

/-- The default constructor: a lone `NIL` root. -/
def new : Anatree := ⟨.nil [], 0, 1⟩

/-- `insert(w)`: sort the word and descend. -/
def insert (a : Anatree) (w : Word) : Anatree :=
  let r := insert__rec w a.m_root (sorted_word w)
  ⟨r.root, a.m_size + r.dsize, a.m_tree_size + r.dtree⟩

/-- `clear()`. -/
def clear (_ : Anatree) : Anatree := ⟨.nil [], 0, 1⟩

/-- `size()`. -/
def size (a : Anatree) : Nat := a.m_size

/-- `tree_size()`. -/
def tree_size (a : Anatree) : Nat := a.m_tree_size

/-- `contains(w)`: the node of the sorted key exists and holds `w` itself. -/
def contains (a : Anatree) (w : Word) : Bool :=
  match find_node__rec a.m_root (sorted_word w) with
  | some n => decide (w ∈ n.words)
  | none => false

/-- `anagrams_of(w)`: the word set of the node of the sorted key. -/
def anagrams_of (a : Anatree) (w : Word) : List Word :=
  match find_node__rec a.m_root (sorted_word w) with
  | some n => n.words
  | none => []

/-- `subanagrams_of(w)`. -/
def subanagrams_of (a : Anatree) (w : Word) : List Word :=
  subanagrams_of__rec a.m_root (sorted_word w)

/-- `keys(word_length)`. -/
def keys_len (a : Anatree) (len : Nat) : List Word :=
  keys__rec_len len a.m_root 0

end Anatree

/-- `insert(begin, end)`: insert a sequence of words in order. -/
def insertAll (a : Anatree) (ws : List Word) : Anatree :=
  ws.foldl Anatree.insert a

/-- The tree obtained by inserting `ws`, in order, into a fresh anatree. -/
def treeOf (ws : List Word) : Anatree :=
  insertAll Anatree.new ws

/-- `a` is a sub-multiset of `b`: every symbol occurs in `a` at most as
often as in `b`.  This is the "sub-anagram" relation on keys. -/
def subMS (a b : List Nat) : Prop :=
  ∀ x : Nat, a.count x ≤ b.count x

instance (a b : List Nat) : Decidable (subMS a b) := by
  unfold subMS
  exact decidable_of_iff (∀ x ∈ a, a.count x ≤ b.count x) (by
    constructor
    · intro h x
      by_cases hx : x ∈ a
      · exact h x hx
      · simp [List.count_eq_zero_of_not_mem hx]
    · intro h x _
      exact h x)

/-- Association-list model of the `word_map_t` (`std::unordered_map`)
used by `keys__rec`: lookup. -/
def kfind (m : List (Word × Word)) (k : Word) : Option Word :=
  match m.find? (fun kv => kv.1 = k) with
  | some kv => some kv.2
  | none => none

/-- Association-list model of `ret[k] = v`: replace an existing binding or
append a new one. -/
def kinsert (m : List (Word × Word)) (k v : Word) : List (Word × Word) :=
  if (kfind m k).isSome then
    m.map (fun kv => if kv.1 = k then (k, v) else kv)
  else
    m ++ [(k, v)]

/-- The superseded check of `keys__rec`, scanning the two local keys from
their ends: a true-side symbol smaller than the current false-side symbol is
skipped; equal symbols consume both; otherwise the false side holds a symbol
missing on the true side and the scan breaks.  The arguments are the two
keys reversed (index from the end = head).  Superseded requires both scans
to be exhausted (`false_idx < 0 && true_idx < 0`). -/
def supersededRev : List Nat → List Nat → Bool
  | [], [] => true
  | [], _ :: _ => false
  | _ :: _, [] => false
  | fc :: fr, tc :: tr =>
    if tc < fc then supersededRev (fc :: fr) tr
    else if fc = tc then supersededRev fr tr
    else false

/-- One iteration of the `rec_false` loop body of `keys__rec`: drop the
entry if its word is a key of `rec_true` or if it is superseded by some
`rec_true` entry, otherwise add it under its local key extended by the
node's symbol. -/
def keysFalseStep (recT : List (Word × Word)) (c : Nat)
    (ret : List (Word × Word)) (kv : Word × Word) : List (Word × Word) :=
  if (kfind recT kv.2).isSome then ret
  else if recT.any (fun tkv => supersededRev kv.1.reverse tkv.1.reverse) then ret
  else kinsert ret (kv.1 ++ [c]) kv.2

/-- `keys__rec(p)`: bottom-up construction of the minimal covering map from
local keys to representative words. -/
def keys__rec : Node → List (Word × Word)
  | .nil ws =>
    match ws with
    | [] => []
    | w :: _ => [([], w)]
  | .node c f t _ =>
    let recT := keys__rec t
    let recF := keys__rec f
    let step1 := recF.foldl (keysFalseStep recT c) []
    recT.foldl (fun ret kv => kinsert ret (kv.1 ++ [c]) kv.2) step1

/-- `keys()`: the values of the map computed by `keys__rec`, collected into
a word set. -/
def Anatree.keys (a : Anatree) : List Word :=
  (keys__rec a.m_root).foldl (fun s kv => insertW s kv.2) []

/-- The symbol of a node, as a list (`NIL` nodes carry no symbol). -/
def symsOf : Node → List Nat
  | .nil _ => []
  | .node c _ _ _ => [c]

/-- The symbols of the non-`NIL` nodes entered through a true ("present")
edge while walking `path` from `p` (a `false` entry walks to the false
child, a `true` entry to the true child; the walk stops at `NIL` nodes or
when the path ends). -/
def pathSyms : Node → List Bool → List Nat
  | .nil _, _ => []
  | .node _ _ _ _, [] => []
  | .node _ _ t _, true :: bs => symsOf t ++ pathSyms t bs
  | .node _ f _ _, false :: bs => pathSyms f bs

/-! ## Basic lemmas about the word-set and map models -/

@[simp] theorem Node.words_withWords (p : Node) (ws : List Word) :
    (p.withWords ws).words = ws := by
  cases p <;> rfl

@[simp] theorem mem_insertW {ws : List Word} {v w : Word} :
    w ∈ insertW ws v ↔ w ∈ ws ∨ w = v := by
  unfold insertW
  split_ifs with h
  · constructor
    · exact .inl
    · rintro (h' | rfl)
      · exact h'
      · exact h
  · simp

theorem self_mem_insertW (ws : List Word) (v : Word) : v ∈ insertW ws v := by
  simp

@[simp] theorem mem_unionW {xs ys : List Word} {w : Word} :
    w ∈ unionW xs ys ↔ w ∈ xs ∨ w ∈ ys := by
  induction ys generalizing xs with
  | nil => simp [unionW]
  | cons y ys ih =>
    show w ∈ List.foldl insertW (insertW xs y) ys ↔ _
    rw [show List.foldl insertW (insertW xs y) ys = unionW (insertW xs y) ys from rfl, ih]
    simp
    tauto

/-! ## Unfolding lemmas for the recursive traversals -/

theorem find_node_key_nil (p : Node) : find_node__rec p [] = some p := by
  cases p <;> simp [find_node__rec]

theorem find_node_nil (ws : List Word) (k : Nat) (ks : List Nat) :
    find_node__rec (.nil ws) (k :: ks) = none := by
  simp [find_node__rec]

theorem find_node_node (c : Nat) (f t : Node) (ws : List Word) (k : Nat) (ks : List Nat) :
    find_node__rec (.node c f t ws) (k :: ks) =
      if k < c then none
      else if c < k then find_node__rec f (k :: ks)
      else find_node__rec t ks := by
  simp [find_node__rec]

@[simp] theorem wAt_key_nil (p : Node) : wAt p [] = p.words := by
  unfold wAt
  rw [find_node_key_nil]

@[simp] theorem wAt_nil_cons (ws : List Word) (k : Nat) (ks : List Nat) :
    wAt (.nil ws) (k :: ks) = [] := by
  unfold wAt
  rw [find_node_nil]

theorem wAt_node_cons (c : Nat) (f t : Node) (ws : List Word) (k : Nat) (ks : List Nat) :
    wAt (.node c f t ws) (k :: ks) =
      if k < c then []
      else if c < k then wAt f (k :: ks)
      else wAt t ks := by
  unfold wAt
  rw [find_node_node]
  split_ifs <;> rfl

theorem wAt_withWords (p : Node) (ws : List Word) (q : List Nat) (hq : q ≠ []) :
    wAt (p.withWords ws) q = wAt p q := by
  match q, hq with
  | k :: ks, _ =>
    cases p with
    | nil ws0 => simp [Node.withWords]
    | node c f t ws0 =>
      show wAt (.node c f t ws) _ = _
      rw [wAt_node_cons, wAt_node_cons]

@[simp] theorem wAt_nil_empty (q : List Nat) : wAt (.nil []) q = [] := by
  rcases q with _ | ⟨k, ks⟩ <;> simp [Node.words]

theorem insert_rec_key_nil (w : Word) (p : Node) :
    insert__rec w p [] =
      ⟨p.withWords (insertW p.words w), if w ∈ p.words then 0 else 1, 0⟩ := by
  cases p <;> simp [insert__rec]

theorem insert_rec_nil_cons (w : Word) (ws : List Word) (k : Nat) (ks : List Nat) :
    insert__rec w (.nil ws) (k :: ks) =
      ⟨.node k (.nil []) (insert__rec w (.nil []) ks).root ws,
        (insert__rec w (.nil []) ks).dsize,
        (insert__rec w (.nil []) ks).dtree + 2⟩ := by
  simp [insert__rec]

theorem insert_rec_node_cons (w : Word) (c : Nat) (f t : Node) (ws : List Word)
    (k : Nat) (ks : List Nat) :
    insert__rec w (.node c f t ws) (k :: ks) =
      if k < c then
        ⟨.node k (.node c f t []) (insert__rec w (.nil []) ks).root ws,
          (insert__rec w (.nil []) ks).dsize,
          (insert__rec w (.nil []) ks).dtree + 2⟩
      else if c < k then
        ⟨.node c (insert__rec w f (k :: ks)).root t ws,
          (insert__rec w f (k :: ks)).dsize,
          (insert__rec w f (k :: ks)).dtree⟩
      else
        ⟨.node c f (insert__rec w t ks).root ws,
          (insert__rec w t ks).dsize,
          (insert__rec w t ks).dtree⟩ := by
  simp [insert__rec]

theorem cons_ne_head (x k : Nat) (xs ks : List Nat) (h : x ≠ k) :
    x :: xs ≠ k :: ks := by
  simp [h]

/-! ## The master lemma: how one `insert` changes the word set of every key -/

/-- After `insert__rec w p key`, the word set observed at key `q` is
unchanged unless `q = key`, in which case `w` has been added.  This holds
for arbitrary trees and captures that the in-front splice moves the word
set of the displaced node onto the new node. -/
theorem wAt_insert_rec (w : Word) (p : Node) (key : List Nat) (q : List Nat) :
    wAt (insert__rec w p key).root q =
      if q = key then insertW (wAt p key) w else wAt p q := by
  induction p, key using insert__rec.induct w generalizing q with
  | case1 p =>
    rw [insert_rec_key_nil]
    rcases q with _ | ⟨x, xs⟩
    · simp
    · rw [wAt_withWords _ _ _ (by simp)]
      simp
  | case2 ws k ks ih =>
    rw [insert_rec_nil_cons]
    rcases q with _ | ⟨x, xs⟩
    · simp [Node.words]
    · show wAt (.node k (.nil []) (insert__rec w (.nil []) ks).root ws) _ = _
      rw [wAt_node_cons]
      by_cases hxk : x < k
      · rw [if_pos hxk, if_neg (cons_ne_head x k xs ks (by omega)), wAt_nil_cons]
      · by_cases hkx : k < x
        · rw [if_neg hxk, if_pos hkx, if_neg (cons_ne_head x k xs ks (by omega)),
            wAt_nil_empty, wAt_nil_cons]
        · have hx : x = k := by omega
          subst hx
          rw [if_neg hxk, if_neg hkx, ih]
          simp only [wAt_nil_empty, wAt_nil_cons]
          by_cases hxs : xs = ks
          · simp [hxs]
          · simp [hxs]
  | case3 c f t ws k ks hkc ih =>
    rw [insert_rec_node_cons, if_pos hkc]
    rcases q with _ | ⟨x, xs⟩
    · simp [Node.words]
    · show wAt (.node k (.node c f t []) (insert__rec w (.nil []) ks).root ws) _ = _
      rw [wAt_node_cons]
      by_cases hxk : x < k
      · rw [if_pos hxk, if_neg (cons_ne_head x k xs ks (by omega)), wAt_node_cons,
          if_pos (by omega)]
      · by_cases hkx : k < x
        · rw [if_neg hxk, if_pos hkx, if_neg (cons_ne_head x k xs ks (by omega)),
            wAt_node_cons, wAt_node_cons]
        · have hx : x = k := by omega
          subst hx
          rw [if_neg hxk, if_neg hkx, ih]
          simp only [wAt_nil_empty]
          by_cases hxs : xs = ks
          · rw [if_pos hxs, if_pos (by rw [hxs]), wAt_node_cons, if_pos hkc]
          · rw [if_neg hxs, if_neg (by simp [hxs]), wAt_node_cons, if_pos hkc]
  | case4 c f t ws k ks hkc hck ih =>
    rw [insert_rec_node_cons, if_neg hkc, if_pos hck]
    rcases q with _ | ⟨x, xs⟩
    · simp [Node.words]
    · show wAt (.node c (insert__rec w f (k :: ks)).root t ws) _ = _
      rw [wAt_node_cons]
      by_cases hxc : x < c
      · rw [if_pos hxc, if_neg (cons_ne_head x k xs ks (by omega)), wAt_node_cons,
          if_pos hxc]
      · by_cases hcx : c < x
        · rw [if_neg hxc, if_pos hcx, ih]
          by_cases hq : x :: xs = k :: ks
          · rw [if_pos hq, if_pos hq, wAt_node_cons, if_neg hkc, if_pos hck]
          · rw [if_neg hq, if_neg hq, wAt_node_cons, if_neg hxc, if_pos hcx]
        · have hx : x = c := by omega
          subst hx
          rw [if_neg hxc, if_neg hcx, if_neg (cons_ne_head x k xs ks (by omega)),
            wAt_node_cons, if_neg hxc, if_neg hcx]
  | case5 c f t ws k ks hkc hck ih =>
    have hk : k = c := by omega
    subst hk
    rw [insert_rec_node_cons, if_neg hkc, if_neg hck]
    rcases q with _ | ⟨x, xs⟩
    · simp [Node.words]
    · show wAt (.node k f (insert__rec w t ks).root ws) _ = _
      rw [wAt_node_cons]
      by_cases hxc : x < k
      · rw [if_pos hxc, if_neg (cons_ne_head x k xs ks (by omega)), wAt_node_cons,
          if_pos hxc]
      · by_cases hcx : k < x
        · rw [if_neg hxc, if_pos hcx, if_neg (cons_ne_head x k xs ks (by omega)),
            wAt_node_cons, if_neg hxc, if_pos hcx]
        · have hx : x = k := by omega
          subst hx
          rw [if_neg hxc, if_neg hcx, ih]
          by_cases hxs : xs = ks
          · rw [if_pos hxs, if_pos (by rw [hxs]), wAt_node_cons, if_neg hxc,
              if_neg hcx]
          · rw [if_neg hxs, if_neg (by simp [hxs]), wAt_node_cons, if_neg hxc,
              if_neg hcx]

/-- The `m_size` increment of one `insert__rec` is `1` exactly when the
word is not yet present at its key's node. -/
theorem dsize_insert_rec (w : Word) (p : Node) (key : List Nat) :
    (insert__rec w p key).dsize = if w ∈ wAt p key then 0 else 1 := by
  induction p, key using insert__rec.induct w with
  | case1 p =>
    rw [insert_rec_key_nil, wAt_key_nil]
  | case2 ws k ks ih =>
    rw [insert_rec_nil_cons, wAt_nil_cons, if_neg (by simp)]
    show (insert__rec w (.nil []) ks).dsize = 1
    rw [ih, wAt_nil_empty, if_neg (by simp)]
  | case3 c f t ws k ks hkc ih =>
    rw [insert_rec_node_cons, if_pos hkc, wAt_node_cons, if_pos hkc,
      if_neg (by simp)]
    show (insert__rec w (.nil []) ks).dsize = 1
    rw [ih, wAt_nil_empty, if_neg (by simp)]
  | case4 c f t ws k ks hkc hck ih =>
    rw [insert_rec_node_cons, if_neg hkc, if_pos hck, wAt_node_cons,
      if_neg hkc, if_pos hck]
    exact ih
  | case5 c f t ws k ks hkc hck ih =>
    rw [insert_rec_node_cons, if_neg hkc, if_neg hck, wAt_node_cons,
      if_neg hkc, if_neg hck]
    exact ih

/-- Inserting a word into a fresh `NIL` node materializes a chain of
`key.length` nodes, each contributing two fresh `NIL` children. -/
theorem dtree_insert_rec_fresh (w : Word) (key : List Nat) :
    (insert__rec w (.nil []) key).dtree = 2 * key.length := by
  induction key with
  | nil =>
    rw [insert_rec_key_nil]
    rfl
  | cons k ks ih =>
    rw [insert_rec_nil_cons]
    show (insert__rec w (.nil []) ks).dtree + 2 = _
    rw [ih]
    simp [Nat.mul_add, Nat.mul_succ]

/-- Inserting a word that is already stored at its key's node leaves the
tree untouched and increments nothing. -/
theorem insert_rec_mem_noop (w : Word) (p : Node) (key : List Nat)
    (h : w ∈ wAt p key) :
    insert__rec w p key = ⟨p, 0, 0⟩ := by
  induction p, key using insert__rec.induct w with
  | case1 p =>
    rw [wAt_key_nil] at h
    rw [insert_rec_key_nil, if_pos h]
    have : insertW p.words w = p.words := by
      unfold insertW
      rw [if_pos h]
    rw [this]
    cases p <;> rfl
  | case2 ws k ks ih =>
    rw [wAt_nil_cons] at h
    cases h
  | case3 c f t ws k ks hkc ih =>
    rw [wAt_node_cons, if_pos hkc] at h
    cases h
  | case4 c f t ws k ks hkc hck ih =>
    rw [wAt_node_cons, if_neg hkc, if_pos hck] at h
    rw [insert_rec_node_cons, if_neg hkc, if_pos hck, ih h]
  | case5 c f t ws k ks hkc hck ih =>
    rw [wAt_node_cons, if_neg hkc, if_neg hck] at h
    rw [insert_rec_node_cons, if_neg hkc, if_neg hck, ih h]

/-! ## Lemmas about `sorted_word` -/

theorem sorted_word_perm (w : Word) : (sorted_word w).Perm w :=
  List.perm_insertionSort _ w

theorem sorted_word_length (w : Word) : (sorted_word w).length = w.length :=
  (sorted_word_perm w).length_eq

theorem sorted_word_sorted (w : Word) : List.Sorted (· ≤ ·) (sorted_word w) :=
  List.sorted_insertionSort _ w

theorem sorted_word_count (w : Word) (x : Nat) :
    (sorted_word w).count x = w.count x :=
  (sorted_word_perm w).count_eq x

/-! ## Folding inserts: the word set of any reachable tree -/

theorem treeOf_append (ws : List Word) (v : Word) :
    treeOf (ws ++ [v]) = (treeOf ws).insert v := by
  unfold treeOf insertAll
  rw [List.foldl_append]
  rfl

theorem wAt_anatree_insert (a : Anatree) (w : Word) (q : List Nat) :
    wAt (a.insert w).m_root q =
      if q = sorted_word w then insertW (wAt a.m_root (sorted_word w)) w
      else wAt a.m_root q := by
  unfold Anatree.insert
  exact wAt_insert_rec w a.m_root (sorted_word w) q

/-- The word set observed at key `q` of the tree built from `ws` holds
exactly the inserted words whose sorted key is `q`. -/
theorem mem_wAt_treeOf (ws : List Word) (q : List Nat) (w : Word) :
    w ∈ wAt (treeOf ws).m_root q ↔ w ∈ ws ∧ sorted_word w = q := by
  induction ws using List.reverseRecOn with
  | nil => simp [treeOf, insertAll, Anatree.new]
  | append_singleton l v ih =>
    rw [treeOf_append, wAt_anatree_insert]
    by_cases hq : q = sorted_word v
    · subst hq
      rw [if_pos rfl, mem_insertW, ih]
      constructor
      · rintro (⟨h1, h2⟩ | rfl)
        · exact ⟨by simp [h1], h2⟩
        · exact ⟨by simp, rfl⟩
      · rintro ⟨h1, h2⟩
        rcases List.mem_append.1 h1 with h1 | h1
        · exact .inl ⟨h1, h2⟩
        · simp at h1
          exact .inr h1
    · rw [if_neg hq, ih]
      constructor
      · rintro ⟨h1, h2⟩
        exact ⟨by simp [h1], h2⟩
      · rintro ⟨h1, h2⟩
        rcases List.mem_append.1 h1 with h1 | h1
        · exact ⟨h1, h2⟩
        · simp at h1
          subst h1
          exact absurd h2.symm hq

theorem contains_iff_mem_wAt (a : Anatree) (w : Word) :
    a.contains w = true ↔ w ∈ wAt a.m_root (sorted_word w) := by
  unfold Anatree.contains wAt
  cases find_node__rec a.m_root (sorted_word w) <;> simp

/-- Membership in any reachable tree is exactly membership in the list of
inserted words. -/
theorem contains_treeOf (ws : List Word) (w : Word) :
    (treeOf ws).contains w = true ↔ w ∈ ws := by
  rw [contains_iff_mem_wAt, mem_wAt_treeOf]
  simp

theorem anagrams_of_eq_wAt (a : Anatree) (w : Word) :
    a.anagrams_of w = wAt a.m_root (sorted_word w) := by
  unfold Anatree.anagrams_of wAt
  cases find_node__rec a.m_root (sorted_word w) <;> rfl

theorem size_insert (a : Anatree) (w : Word) :
    (a.insert w).size =
      a.size + if w ∈ wAt a.m_root (sorted_word w) then 0 else 1 := by
  show a.m_size + (insert__rec w a.m_root (sorted_word w)).dsize = _
  rw [dsize_insert_rec]
  rfl

/-! ## Claim theorems on membership, sizes and anagram symmetry -/

/-- C1: Round-trip membership with terminal-assignment preservation: after
any sequence of inserts, inserting `w` and then performing any further
inserts, `contains w` is still true.  (The in-front splice moving the
displaced node's words is what makes `wAt_insert_rec` — and hence this —
hold for all tree states.) -/
theorem C1_round_trip_membership (ws1 ws2 : List Word) (w : Word) :
    (insertAll ((treeOf ws1).insert w) ws2).contains w = true := by
  have h : insertAll ((treeOf ws1).insert w) ws2 = treeOf (ws1 ++ w :: ws2) := by
    unfold treeOf insertAll
    rw [List.foldl_append]
    rfl
  rw [h, contains_treeOf]
  simp

/-- C10: a duplicate insert is a complete no-op: if `w` is already
contained, `insert w` returns a tree equal in every observable component
(root node structure, `size`, `tree_size`), hence all queries coincide. -/
theorem C10_duplicate_insert_noop (a : Anatree) (w : Word)
    (h : a.contains w = true) :
    a.insert w = a := by
  rw [contains_iff_mem_wAt] at h
  unfold Anatree.insert
  rw [insert_rec_mem_noop w a.m_root (sorted_word w) h]
  cases a
  rfl

/-- C10 witness: inserting `[1]` into the tree already holding `[1]` is a
no-op. -/
theorem C10_duplicate_insert_noop_witness :
    (treeOf [[1]]).insert [1] = treeOf [[1]] :=
  C10_duplicate_insert_noop (treeOf [[1]]) [1]
    ((contains_treeOf [[1]] [1]).2 (by simp))

/-- C6: size accounting: `size()` equals the number of distinct words
inserted so far; inserting an already-stored word (checked by exact word
equality) leaves `size()` unchanged while membership still holds. -/
theorem C6_size_accounting :
    (∀ ws : List Word, (treeOf ws).size = ws.toFinset.card) ∧
    (∀ (a : Anatree) (w : Word), a.contains w = true →
      (a.insert w).size = a.size ∧ (a.insert w).contains w = true) := by
  constructor
  · intro ws
    induction ws using List.reverseRecOn with
    | nil => rfl
    | append_singleton l v ih =>
      rw [treeOf_append, size_insert, ih]
      have hv : v ∈ wAt (treeOf l).m_root (sorted_word v) ↔ v ∈ l := by
        rw [mem_wAt_treeOf]
        simp
      by_cases hmem : v ∈ l
      · rw [if_pos (hv.2 hmem)]
        have h2 : (l ++ [v]).toFinset = l.toFinset := by
          simp [List.toFinset_append]
          exact hmem
        rw [h2]
        omega
      · rw [if_neg (fun hc => hmem (hv.1 hc))]
        have h2 : (l ++ [v]).toFinset = insert v l.toFinset := by
          rw [List.toFinset_append, Finset.union_comm]
          simp [Finset.insert_eq]
        rw [h2, Finset.card_insert_of_not_mem (by simpa using hmem)]
  · intro a w h
    rw [contains_iff_mem_wAt] at h
    constructor
    · rw [size_insert, if_pos h]
      omega
    · rw [contains_iff_mem_wAt, wAt_anatree_insert, if_pos rfl]
      exact self_mem_insertW _ _

/-- C6 witness: duplicate insert of `[1]` keeps `size` and membership. -/
theorem C6_size_accounting_witness :
    ((treeOf [[1]]).insert [1]).size = (treeOf [[1]]).size ∧
      ((treeOf [[1]]).insert [1]).contains [1] = true :=
  C6_size_accounting.2 (treeOf [[1]]) [1]
    ((contains_treeOf [[1]] [1]).2 (by simp))

/-- C7: node accounting: a fresh or cleared tree has `tree_size() == 1`,
and inserting a first word of length `L` into an empty tree gives
`tree_size() == 2 * L + 1`. -/
theorem C7_node_accounting :
    Anatree.new.tree_size = 1 ∧
    (∀ a : Anatree, a.clear.tree_size = 1) ∧
    (∀ w : Word, (Anatree.new.insert w).tree_size = 2 * w.length + 1) := by
  refine ⟨rfl, fun a => rfl, fun w => ?_⟩
  show 1 + (insert__rec w (.nil []) (sorted_word w)).dtree = _
  rw [dtree_insert_rec_fresh, sorted_word_length]
  omega

/-- C8: anagram symmetry: if `a` and `b` have the same sorted key, then
after inserting `a` into any tree state, `anagrams_of b` contains `a`. -/
theorem C8_anagram_symmetry (a b : Word) (t : Anatree)
    (h : sorted_word a = sorted_word b) :
    a ∈ (t.insert a).anagrams_of b := by
  rw [anagrams_of_eq_wAt, wAt_anatree_insert, ← h, if_pos rfl]
  exact self_mem_insertW _ _

/-- C8 witness: `[1,2]` is an anagram of `[2,1]` and is found after
inserting it into the empty tree. -/
theorem C8_anagram_symmetry_witness :
    [1, 2] ∈ (Anatree.new.insert [1, 2]).anagrams_of [2, 1] :=
  C8_anagram_symmetry [1, 2] [2, 1] Anatree.new (by decide)

/-! ## The ordering invariant of reachable trees -/

/-- Ordering invariant with lower bound `lb`: the node's symbol is at least
`lb`, symbols in the false subtree are strictly larger than the node's, and
symbols in the true subtree are at least the node's (duplicate symbols of a
word repeat along true edges). -/
def OrdInv : Nat → Node → Prop
  | _, .nil _ => True
  | lb, .node c f t _ => lb ≤ c ∧ OrdInv (c + 1) f ∧ OrdInv c t

@[simp] theorem Inv_nil (lb : Nat) (ws : List Word) : OrdInv lb (.nil ws) := by
  trivial

theorem Inv_node (lb c : Nat) (f t : Node) (ws : List Word) :
    OrdInv lb (.node c f t ws) ↔ lb ≤ c ∧ OrdInv (c + 1) f ∧ OrdInv c t :=
  Iff.rfl

theorem Inv_withWords (lb : Nat) (p : Node) (ws : List Word) (h : OrdInv lb p) :
    OrdInv lb (p.withWords ws) := by
  cases p
  · trivial
  · exact h

theorem Inv_insert_rec (w : Word) (p : Node) (key : List Nat) (lb : Nat)
    (hp : OrdInv lb p) (hs : List.Sorted (· ≤ ·) key) (hk : ∀ x ∈ key, lb ≤ x) :
    OrdInv lb (insert__rec w p key).root := by
  induction p, key using insert__rec.induct w generalizing lb with
  | case1 p =>
    rw [insert_rec_key_nil]
    exact Inv_withWords lb p _ hp
  | case2 ws k ks ih =>
    rw [insert_rec_nil_cons]
    refine ⟨hk k (by simp), trivial, ?_⟩
    exact ih k trivial ((List.sorted_cons.1 hs).2)
      (fun x hx => (List.sorted_cons.1 hs).1 x hx)
  | case3 c f t ws k ks hkc ih =>
    rw [insert_rec_node_cons, if_pos hkc]
    obtain ⟨h1, h2, h3⟩ := hp
    refine ⟨hk k (by simp), ⟨by omega, h2, h3⟩, ?_⟩
    exact ih k trivial ((List.sorted_cons.1 hs).2)
      (fun x hx => (List.sorted_cons.1 hs).1 x hx)
  | case4 c f t ws k ks hkc hck ih =>
    rw [insert_rec_node_cons, if_neg hkc, if_pos hck]
    obtain ⟨h1, h2, h3⟩ := hp
    refine ⟨h1, ?_, h3⟩
    refine ih (c + 1) h2 hs ?_
    intro x hx
    rcases List.mem_cons.1 hx with rfl | hx
    · omega
    · have := (List.sorted_cons.1 hs).1 x hx
      omega
  | case5 c f t ws k ks hkc hck ih =>
    rw [insert_rec_node_cons, if_neg hkc, if_neg hck]
    obtain ⟨h1, h2, h3⟩ := hp
    refine ⟨h1, h2, ?_⟩
    refine ih c h3 ((List.sorted_cons.1 hs).2) ?_
    intro x hx
    have := (List.sorted_cons.1 hs).1 x hx
    omega

/-- Every reachable tree satisfies the ordering invariant. -/
theorem OrdInv_treeOf (ws : List Word) : OrdInv 0 (treeOf ws).m_root := by
  induction ws using List.reverseRecOn with
  | nil => trivial
  | append_singleton l v ih =>
    rw [treeOf_append]
    exact Inv_insert_rec v _ _ 0 ih (sorted_word_sorted v) (fun x _ => Nat.zero_le x)

theorem pathSyms_lb (path : List Bool) (p : Node) (lb : Nat) (hp : OrdInv lb p) :
    ∀ x ∈ pathSyms p path, lb ≤ x := by
  induction path generalizing p lb with
  | nil => cases p <;> simp [pathSyms]
  | cons b bs ih =>
    cases p with
    | nil ws => simp [pathSyms]
    | node c f t ws =>
      obtain ⟨h1, h2, h3⟩ := hp
      cases b with
      | false =>
        intro x hx
        have := ih f (c + 1) h2 x hx
        omega
      | true =>
        intro x hx
        rcases List.mem_append.1 hx with hx | hx
        · cases t with
          | nil ws2 => simp [symsOf] at hx
          | node c2 f2 t2 ws2 =>
            simp [symsOf] at hx
            subst hx
            obtain ⟨h4, _, _⟩ := h3
            omega
        · have := ih t c h3 x hx
          omega

theorem pathSyms_chain (path : List Bool) (p : Node) (lb : Nat) (hp : OrdInv lb p) :
    List.Chain' (· ≤ ·) (pathSyms p path) := by
  induction path generalizing p lb with
  | nil => cases p <;> simp [pathSyms]
  | cons b bs ih =>
    cases p with
    | nil ws => simp [pathSyms]
    | node c f t ws =>
      obtain ⟨h1, h2, h3⟩ := hp
      cases b with
      | false => exact ih f (c + 1) h2
      | true =>
        cases t with
        | nil ws2 =>
          simp [pathSyms, symsOf]
        | node c2 f2 t2 ws2 =>
          show List.Chain' _ (c2 :: pathSyms (.node c2 f2 t2 ws2) bs)
          rw [List.chain'_cons']
          obtain ⟨h4, h5, h6⟩ := h3
          refine ⟨?_, ih _ c ⟨h4, h5, h6⟩⟩
          intro y hy
          have h7 : OrdInv c2 (.node c2 f2 t2 ws2) := ⟨le_refl c2, h5, h6⟩
          exact pathSyms_lb bs (.node c2 f2 t2 ws2) c2 h7 y
            (List.mem_of_mem_head? hy)

/-- Concrete tree: inserting the word `[1,1,1]` (a word with repeated
symbols) into an empty tree produces a chain of three nodes all bearing
symbol `1`. -/
theorem tree111_root :
    (treeOf [[1,1,1]]).m_root =
      .node 1 (.nil []) (.node 1 (.nil [])
        (.node 1 (.nil []) (.nil [[1,1,1]]) []) []) [] := by
  show (insert__rec [1,1,1] (.nil []) (sorted_word [1,1,1])).root = _
  have hs : sorted_word [1,1,1] = [1,1,1] := by decide
  rw [hs, insert_rec_nil_cons, insert_rec_nil_cons, insert_rec_nil_cons,
    insert_rec_key_nil]
  rfl

/-- C5 counterexample: after inserting the word `[1,1,1]`, the
root-to-node path taking the true edge twice meets two nodes whose symbols
are `1, 1` — the true-edge symbol sequence is not strictly increasing, so
the claim fails for words with repeated symbols. -/
theorem C5_counterexample :
    ¬ List.Sorted (· < ·)
      (pathSyms (treeOf [[1,1,1]]).m_root [true, true]) := by
  rw [tree111_root]
  have h : pathSyms (.node 1 (.nil []) (.node 1 (.nil [])
      (.node 1 (.nil []) (.nil [[1,1,1]]) []) []) [] : Node)
      [true, true] = [1, 1] := rfl
  rw [h]
  decide

/-- C5 (amended): along every root-to-node path of a tree reachable by any
sequence of inserts, the sequence of symbols of the nodes reached via the
true edge is non-decreasing (weakly increasing); with words containing
repeated symbols, equal symbols may appear on consecutive true edges, so
strict increase does not hold in general. -/
theorem C5_true_edge_nondecreasing (ws : List Word) (path : List Bool) :
    List.Sorted (· ≤ ·) (pathSyms (treeOf ws).m_root path) := by
  have h := pathSyms_chain path (treeOf ws).m_root 0 (OrdInv_treeOf ws)
  rw [List.chain'_iff_pairwise] at h
  exact h

/-- Concrete tree: inserting `[2]` into an empty tree. -/
theorem tree2_root :
    (treeOf [[2]]).m_root = .node 2 (.nil []) (.nil [[2]]) [] := by
  show (insert__rec [2] (.nil []) (sorted_word [2])).root = _
  have hs : sorted_word [2] = [2] := by decide
  rw [hs, insert_rec_nil_cons, insert_rec_key_nil]
  rfl

/-- C4: evaluating `subanagrams_of([1])` on the tree holding `[2]` drives
the skip-forward loop to evaluate `*curr` at the end position: the loop
condition tests `m_char_comp(*curr, p->m_char)` before `curr != end`, so it
reads one past the last key symbol. -/
theorem C4_skip_loop_reads_past_end :
    subOOB (treeOf [[2]]).m_root (sorted_word [1]) = true := by
  rw [tree2_root]
  have hs : sorted_word [1] = [1] := by decide
  rw [hs]
  simp [subOOB]

/-! ## Word-placement invariants of reachable trees -/

/-- Every node of the false-only chain starting here carries no words. -/
def fwEmpty : Node → Prop
  | .nil ws => ws = []
  | .node _ f _ ws => ws = [] ∧ fwEmpty f

/-- Words sit only at the root or at nodes entered via a true edge: for
every node of the tree, the false-only chain below its false child carries
no words.  (A word's key is consumed exactly when a true edge is taken, and
the insert descent stores the word at the first node it reaches with an
exhausted cursor, which is never reached through a false edge.) -/
def WFC : Node → Prop
  | .nil _ => True
  | .node _ f t _ => fwEmpty f ∧ WFC f ∧ WFC t

theorem fwEmpty_words {p : Node} (h : fwEmpty p) : p.words = [] := by
  cases p
  · exact h
  · exact h.1

theorem fwEmpty_insert_rec (w : Word) (p : Node) (key : List Nat)
    (h : fwEmpty p) (hk : key ≠ []) :
    fwEmpty (insert__rec w p key).root := by
  induction p, key using insert__rec.induct w with
  | case1 p => exact absurd rfl hk
  | case2 ws k ks ih =>
    rw [insert_rec_nil_cons]
    exact ⟨h, rfl⟩
  | case3 c f t ws k ks hkc ih =>
    rw [insert_rec_node_cons, if_pos hkc]
    exact ⟨h.1, rfl, h.2⟩
  | case4 c f t ws k ks hkc hck ih =>
    rw [insert_rec_node_cons, if_neg hkc, if_pos hck]
    exact ⟨h.1, ih h.2 (by simp)⟩
  | case5 c f t ws k ks hkc hck ih =>
    rw [insert_rec_node_cons, if_neg hkc, if_neg hck]
    exact ⟨h.1, h.2⟩

theorem WFC_insert_rec (w : Word) (p : Node) (key : List Nat)
    (h : WFC p) :
    WFC (insert__rec w p key).root := by
  induction p, key using insert__rec.induct w with
  | case1 p =>
    rw [insert_rec_key_nil]
    cases p
    · trivial
    · exact h
  | case2 ws k ks ih =>
    rw [insert_rec_nil_cons]
    exact ⟨rfl, trivial, ih trivial⟩
  | case3 c f t ws k ks hkc ih =>
    rw [insert_rec_node_cons, if_pos hkc]
    obtain ⟨h1, h2, h3⟩ := h
    exact ⟨⟨rfl, h1⟩, ⟨h1, h2, h3⟩, ih trivial⟩
  | case4 c f t ws k ks hkc hck ih =>
    rw [insert_rec_node_cons, if_neg hkc, if_pos hck]
    obtain ⟨h1, h2, h3⟩ := h
    exact ⟨fwEmpty_insert_rec w f (k :: ks) h1 (by simp), ih h2, h3⟩
  | case5 c f t ws k ks hkc hck ih =>
    rw [insert_rec_node_cons, if_neg hkc, if_neg hck]
    obtain ⟨h1, h2, h3⟩ := h
    exact ⟨h1, h2, ih h3⟩

theorem WFC_treeOf (ws : List Word) : WFC (treeOf ws).m_root := by
  induction ws using List.reverseRecOn with
  | nil => trivial
  | append_singleton l v ih =>
    rw [treeOf_append]
    exact WFC_insert_rec v _ _ ih

/-- Terminal-assignment invariant relative to the accumulated true-edge
symbols `ks`: every word stored at this node has sorted key exactly `ks`,
recursively, with the node's symbol appended along the true edge. -/
def TAI : List Nat → Node → Prop
  | ks, .nil ws => ∀ w ∈ ws, sorted_word w = ks
  | ks, .node c f t ws =>
    (∀ w ∈ ws, sorted_word w = ks) ∧ TAI ks f ∧ TAI (ks ++ [c]) t

theorem TAI_nil_iff (ks : List Nat) (ws : List Word) :
    TAI ks (.nil ws) ↔ ∀ w ∈ ws, sorted_word w = ks :=
  Iff.rfl

theorem TAI_node_iff (ks : List Nat) (c : Nat) (f t : Node) (ws : List Word) :
    TAI ks (.node c f t ws) ↔
      (∀ w ∈ ws, sorted_word w = ks) ∧ TAI ks f ∧ TAI (ks ++ [c]) t :=
  Iff.rfl

theorem TAI_nil_empty (ks : List Nat) : TAI ks (.nil []) := by
  rw [TAI_nil_iff]
  intro w hw
  cases hw

theorem TAI_insert_rec (w : Word) (p : Node) (key : List Nat) (ks : List Nat)
    (hp : TAI ks p) (hw : sorted_word w = ks ++ key) :
    TAI ks (insert__rec w p key).root := by
  induction p, key using insert__rec.induct w generalizing ks with
  | case1 p =>
    rw [insert_rec_key_nil]
    rw [List.append_nil] at hw
    cases p with
    | nil ws =>
      show TAI ks (.nil (insertW ws w))
      rw [TAI_nil_iff] at hp ⊢
      intro w' hw'
      rcases mem_insertW.1 hw' with hw' | rfl
      · exact hp w' hw'
      · exact hw
    | node c f t ws =>
      show TAI ks (.node c f t (insertW ws w))
      rw [TAI_node_iff] at hp ⊢
      refine ⟨?_, hp.2.1, hp.2.2⟩
      intro w' hw'
      rcases mem_insertW.1 hw' with hw' | rfl
      · exact hp.1 w' hw'
      · exact hw
  | case2 ws k ks' ih =>
    rw [insert_rec_nil_cons]
    rw [TAI_nil_iff] at hp
    rw [TAI_node_iff]
    refine ⟨hp, TAI_nil_empty ks, ?_⟩
    refine ih (ks ++ [k]) (TAI_nil_empty _) ?_
    rw [hw, List.append_assoc]
    rfl
  | case3 c f t ws k ks' hkc ih =>
    rw [insert_rec_node_cons, if_pos hkc]
    rw [TAI_node_iff] at hp
    rw [TAI_node_iff]
    refine ⟨hp.1, ?_, ?_⟩
    · rw [TAI_node_iff]
      exact ⟨List.forall_mem_nil _, hp.2.1, hp.2.2⟩
    · refine ih (ks ++ [k]) (TAI_nil_empty _) ?_
      rw [hw, List.append_assoc]
      rfl
  | case4 c f t ws k ks' hkc hck ih =>
    rw [insert_rec_node_cons, if_neg hkc, if_pos hck]
    rw [TAI_node_iff] at hp
    rw [TAI_node_iff]
    exact ⟨hp.1, ih ks hp.2.1 hw, hp.2.2⟩
  | case5 c f t ws k ks' hkc hck ih =>
    have hk : k = c := by omega
    subst hk
    rw [insert_rec_node_cons, if_neg hkc, if_neg hck]
    rw [TAI_node_iff] at hp
    rw [TAI_node_iff]
    refine ⟨hp.1, hp.2.1, ?_⟩
    refine ih (ks ++ [k]) hp.2.2 ?_
    rw [hw, List.append_assoc]
    rfl

theorem TAI_treeOf (ws : List Word) : TAI [] (treeOf ws).m_root := by
  induction ws using List.reverseRecOn with
  | nil => intro w hw; cases hw
  | append_singleton l v ih =>
    rw [treeOf_append]
    exact TAI_insert_rec v _ _ [] ih rfl

/-- All words stored anywhere in a subtree. -/
def allWords : Node → List Word
  | .nil ws => ws
  | .node _ f t ws => ws ++ allWords f ++ allWords t

theorem words_sub_allWords (p : Node) : ∀ x ∈ p.words, x ∈ allWords p := by
  cases p with
  | nil ws => intro x hx; exact hx
  | node c f t ws => intro x hx; simp [allWords, Node.words] at *; tauto

theorem allWords_insert_rec (w : Word) (p : Node) (key : List Nat) :
    ∀ x ∈ allWords (insert__rec w p key).root, x ∈ allWords p ∨ x = w := by
  induction p, key using insert__rec.induct w with
  | case1 p =>
    rw [insert_rec_key_nil]
    intro x hx
    cases p with
    | nil ws =>
      rcases mem_insertW.1 hx with hx | rfl
      · exact .inl hx
      · exact .inr rfl
    | node c f t ws =>
      simp only [allWords, Node.withWords, List.mem_append] at hx
      rcases hx with (hx | hx) | hx
      · rcases mem_insertW.1 hx with hx | rfl
        · exact .inl (by simp [allWords]; tauto)
        · exact .inr rfl
      · exact .inl (by simp [allWords]; tauto)
      · exact .inl (by simp [allWords]; tauto)
  | case2 ws k ks ih =>
    rw [insert_rec_nil_cons]
    intro x hx
    simp only [allWords, List.mem_append] at hx
    rcases hx with (hx | hx) | hx
    · exact .inl hx
    · cases hx
    · rcases ih x hx with hx | rfl
      · cases hx
      · exact .inr rfl
  | case3 c f t ws k ks hkc ih =>
    rw [insert_rec_node_cons, if_pos hkc]
    intro x hx
    simp only [allWords, List.mem_append] at hx
    rcases hx with (hx | hx) | hx
    · exact .inl (by simp [allWords]; tauto)
    · rcases hx with (hx | hx) | hx
      · cases hx
      · exact .inl (by simp [allWords]; tauto)
      · exact .inl (by simp [allWords]; tauto)
    · rcases ih x hx with hx | rfl
      · cases hx
      · exact .inr rfl
  | case4 c f t ws k ks hkc hck ih =>
    rw [insert_rec_node_cons, if_neg hkc, if_pos hck]
    intro x hx
    simp only [allWords, List.mem_append] at hx
    rcases hx with (hx | hx) | hx
    · exact .inl (by simp [allWords]; tauto)
    · rcases ih x hx with hx | rfl
      · exact .inl (by simp [allWords]; tauto)
      · exact .inr rfl
    · exact .inl (by simp [allWords]; tauto)
  | case5 c f t ws k ks hkc hck ih =>
    rw [insert_rec_node_cons, if_neg hkc, if_neg hck]
    intro x hx
    simp only [allWords, List.mem_append] at hx
    rcases hx with (hx | hx) | hx
    · exact .inl (by simp [allWords]; tauto)
    · exact .inl (by simp [allWords]; tauto)
    · rcases ih x hx with hx | rfl
      · exact .inl (by simp [allWords]; tauto)
      · exact .inr rfl

/-- Every word found anywhere in a reachable tree was inserted. -/
theorem allWords_treeOf (ws : List Word) :
    ∀ x ∈ allWords (treeOf ws).m_root, x ∈ ws := by
  induction ws using List.reverseRecOn with
  | nil => intro x hx; cases hx
  | append_singleton l v ih =>
    rw [treeOf_append]
    intro x hx
    rcases allWords_insert_rec v _ _ x hx with hx | rfl
    · simp [ih x hx]
    · simp

theorem repW_mem (ws : List Word) : ∀ w ∈ repW ws, w ∈ ws := by
  cases ws with
  | nil => intro w hw; cases hw
  | cons a l =>
    intro w hw
    rw [show repW (a :: l) = [a] from rfl, List.mem_singleton] at hw
    subst hw
    simp

theorem wAt_sub_allWords (p : Node) (q : List Nat) :
    ∀ x ∈ wAt p q, x ∈ allWords p := by
  induction p, q using find_node__rec.induct with
  | case1 p =>
    rw [wAt_key_nil]
    exact words_sub_allWords p
  | case2 ws k ks =>
    rw [wAt_nil_cons]
    intro x hx
    cases hx
  | case3 c f t ws k ks hkc =>
    rw [wAt_node_cons, if_pos hkc]
    intro x hx
    cases hx
  | case4 c f t ws k ks hkc hck ih =>
    rw [wAt_node_cons, if_neg hkc, if_pos hck]
    intro x hx
    simp [allWords]
    exact .inr (.inl (ih x hx))
  | case5 c f t ws k ks hkc hck ih =>
    rw [wAt_node_cons, if_neg hkc, if_neg hck]
    intro x hx
    simp [allWords]
    exact .inr (.inr (ih x hx))

theorem TAI_allWords_prefix (p : Node) (ks : List Nat) (hp : TAI ks p) :
    ∀ w ∈ allWords p, ∃ d, sorted_word w = ks ++ d := by
  induction p generalizing ks with
  | nil ws =>
    intro w hw
    exact ⟨[], by rw [hp w hw, List.append_nil]⟩
  | node c f t ws ihf iht =>
    rw [TAI_node_iff] at hp
    intro w hw
    simp only [allWords, List.mem_append] at hw
    rcases hw with (hw | hw) | hw
    · exact ⟨[], by rw [hp.1 w hw, List.append_nil]⟩
    · exact ihf ks hp.2.1 w hw
    · obtain ⟨d, hd⟩ := iht (ks ++ [c]) hp.2.2 w hw
      exact ⟨c :: d, by rw [hd, List.append_assoc]; rfl⟩

/-- A word in a subtree whose key is no longer than the accumulated
true-edge prefix sits at the subtree's root node. -/
theorem TAI_len_words (p : Node) (ks : List Nat) (hp : TAI ks p) (hq : WFC p) :
    ∀ w ∈ allWords p, (sorted_word w).length = ks.length → w ∈ p.words := by
  induction p generalizing ks with
  | nil ws =>
    intro w hw _
    exact hw
  | node c f t ws ihf iht =>
    rw [TAI_node_iff] at hp
    obtain ⟨g1, g2, g3⟩ := hq
    intro w hw hlen
    simp only [allWords, List.mem_append] at hw
    rcases hw with (hw | hw) | hw
    · exact hw
    · have := ihf ks hp.2.1 g2 w hw hlen
      rw [fwEmpty_words g1] at this
      cases this
    · obtain ⟨d, hd⟩ := TAI_allWords_prefix t (ks ++ [c]) hp.2.2 w hw
      rw [hd] at hlen
      simp at hlen

theorem keys_len_unfold_nil (len te : Nat) (ws : List Word) :
    keys__rec_len len (.nil ws) te = if te = len then repW ws else [] :=
  rfl

theorem keys_len_unfold_node (len te c : Nat) (f t : Node) (ws : List Word) :
    keys__rec_len len (.node c f t ws) te =
      if te = len then repW ws
      else unionW (keys__rec_len len t (te + 1)) (keys__rec_len len f te) :=
  rfl

/-- Soundness of the fixed-length traversal: every returned word is stored
in the subtree and its key length is exactly `len`. -/
theorem keys_len_sound (len : Nat) (p : Node) (te : Nat) (ks : List Nat)
    (hp : TAI ks p) (hte : ks.length = te) :
    ∀ w ∈ keys__rec_len len p te, w ∈ allWords p ∧ (sorted_word w).length = len := by
  induction p generalizing te ks with
  | nil ws =>
    rw [keys_len_unfold_nil]
    split_ifs with h
    · intro w hw
      have hmem := repW_mem ws w hw
      refine ⟨hmem, ?_⟩
      rw [hp w hmem, hte, h]
    · intro w hw
      cases hw
  | node c f t ws ihf iht =>
    rw [TAI_node_iff] at hp
    rw [keys_len_unfold_node]
    split_ifs with h
    · intro w hw
      have hmem := repW_mem ws w hw
      refine ⟨words_sub_allWords _ w hmem, ?_⟩
      rw [hp.1 w hmem, hte, h]
    · intro w hw
      rcases mem_unionW.1 hw with hw | hw
      · have hte2 : (ks ++ [c]).length = te + 1 := by
          rw [List.length_append, hte]
          rfl
        obtain ⟨h1, h2⟩ := iht (te + 1) (ks ++ [c]) hp.2.2 hte2 w hw
        exact ⟨by simp [allWords]; tauto, h2⟩
      · obtain ⟨h1, h2⟩ := ihf te ks hp.2.1 hte w hw
        exact ⟨by simp [allWords]; tauto, h2⟩

/-- Completeness of the fixed-length traversal: for every stored word of
key length `len`, some stored representative with the same key is
returned. -/
theorem keys_len_complete (len : Nat) (p : Node) (te : Nat) (ks : List Nat)
    (hp : TAI ks p) (hq : WFC p) (hte : ks.length = te) (hle : te ≤ len) :
    ∀ w ∈ allWords p, (sorted_word w).length = len →
      ∃ v, v ∈ keys__rec_len len p te ∧ v ∈ allWords p ∧
        sorted_word v = sorted_word w := by
  induction p generalizing te ks with
  | nil ws =>
    intro w hw hlen
    have hks : sorted_word w = ks := hp w hw
    have hteq : te = len := by
      rw [hks] at hlen
      omega
    rw [keys_len_unfold_nil, if_pos hteq]
    cases ws with
    | nil => cases hw
    | cons a l =>
      refine ⟨a, ?_, show a ∈ a :: l by simp, ?_⟩
      · rw [show repW (a :: l) = [a] from rfl]
        simp
      · rw [hp a (by simp), hks]
  | node c f t ws ihf iht =>
    rw [TAI_node_iff] at hp
    obtain ⟨g1, g2, g3⟩ := hq
    intro w hw hlen
    by_cases hteq : te = len
    · have hwmem : w ∈ (Node.node c f t ws).words := by
        refine TAI_len_words _ ks (TAI_node_iff _ _ _ _ _ |>.2 hp) ⟨g1, g2, g3⟩ w hw ?_
        omega
      rw [keys_len_unfold_node, if_pos hteq]
      cases ws with
      | nil => cases hwmem
      | cons a l =>
        refine ⟨a, ?_, words_sub_allWords _ a (show a ∈ a :: l by simp), ?_⟩
        · rw [show repW (a :: l) = [a] from rfl]
          simp
        have h1 : sorted_word a = ks := hp.1 a (by simp)
        have h2 : sorted_word w = ks := hp.1 w hwmem
        rw [h1, h2]
    · have htlt : te < len := by omega
      rw [keys_len_unfold_node, if_neg hteq]
      simp only [allWords, List.mem_append] at hw
      rcases hw with (hw | hw) | hw
      · have : sorted_word w = ks := hp.1 w hw
        rw [this] at hlen
        omega
      · obtain ⟨v, hv1, hv2, hv3⟩ := ihf te ks hp.2.1 g2 hte hle w hw hlen
        exact ⟨v, mem_unionW.2 (.inr hv1), by simp [allWords]; tauto, hv3⟩
      · have hte2 : (ks ++ [c]).length = te + 1 := by
          rw [List.length_append, hte]
          rfl
        obtain ⟨v, hv1, hv2, hv3⟩ :=
          iht (te + 1) (ks ++ [c]) hp.2.2 g3 hte2 htlt w hw hlen
        exact ⟨v, mem_unionW.2 (.inl hv1), by simp [allWords]; tauto, hv3⟩

/-- C9: fixed-length key set: every word of `keys(n)` is a stored word
whose key has exactly `n` symbols; for every stored word whose key has `n`
symbols, `keys(n)` holds some stored word with the same key; and a length
larger than every stored key yields the empty set, not an error. -/
theorem C9_fixed_length_keys (ws : List Word) (n : Nat) :
    (∀ w ∈ (treeOf ws).keys_len n, w ∈ ws ∧ (sorted_word w).length = n) ∧
    (∀ w ∈ ws, (sorted_word w).length = n →
      ∃ v, v ∈ (treeOf ws).keys_len n ∧ v ∈ ws ∧
        sorted_word v = sorted_word w) ∧
    ((∀ w ∈ ws, (sorted_word w).length < n) → (treeOf ws).keys_len n = []) := by
  have hsound := keys_len_sound n (treeOf ws).m_root 0 [] (TAI_treeOf ws) rfl
  refine ⟨?_, ?_, ?_⟩
  · intro w hw
    obtain ⟨h1, h2⟩ := hsound w hw
    exact ⟨allWords_treeOf ws w h1, h2⟩
  · intro w hw hlen
    have hall : w ∈ allWords (treeOf ws).m_root := by
      refine wAt_sub_allWords _ (sorted_word w) w ?_
      exact (mem_wAt_treeOf ws (sorted_word w) w).2 ⟨hw, rfl⟩
    obtain ⟨v, hv1, hv2, hv3⟩ :=
      keys_len_complete n (treeOf ws).m_root 0 [] (TAI_treeOf ws)
        (WFC_treeOf ws) rfl (Nat.zero_le n) w hall hlen
    exact ⟨v, hv1, allWords_treeOf ws v hv2, hv3⟩
  · intro hlt
    rw [List.eq_nil_iff_forall_not_mem]
    intro w hw
    obtain ⟨h1, h2⟩ := hsound w hw
    have := hlt w (allWords_treeOf ws w h1)
    omega

/-- C9 witness: with words `[1]` and `[1,2]` inserted, `keys 1` contains a
representative of the key `[1]`, and `keys 5` is empty. -/
theorem C9_fixed_length_keys_witness :
    (∃ v, v ∈ (treeOf [[1], [1, 2]]).keys_len 1 ∧ v ∈ [[1], [1, 2]] ∧
      sorted_word v = sorted_word [1]) ∧
    (treeOf [[1], [1, 2]]).keys_len 5 = [] :=
  ⟨(C9_fixed_length_keys [[1], [1, 2]] 1).2.1 [1] (by simp) (by decide),
   (C9_fixed_length_keys [[1], [1, 2]] 5).2.2 (by decide)⟩

/-! ## Helper lemmas for the sub-anagram characterization -/

theorem count_cons_eq (y a : Nat) (l : List Nat) :
    (a :: l).count y = l.count y + if y = a then 1 else 0 := by
  rw [List.count_cons]
  by_cases h : y = a
  · simp [h]
  · simp [h, Ne.symm h]

theorem count_eq_zero_of_forall_ge {d : List Nat} {c y : Nat}
    (hd : ∀ z ∈ d, c ≤ z) (hy : y < c) : d.count y = 0 := by
  rw [List.count_eq_zero]
  intro hmem
  have := hd y hmem
  omega

theorem subMS_nil (q : List Nat) : subMS [] q := by
  intro x
  simp

theorem sorted_forall_ge {x : Nat} {xs : List Nat}
    (h : List.Sorted (· ≤ ·) (x :: xs)) {c : Nat} (hc : c ≤ x) :
    ∀ z ∈ x :: xs, c ≤ z := by
  intro z hz
  rcases List.mem_cons.1 hz with rfl | hz
  · exact hc
  · have := List.rel_of_sorted_cons h z hz
    omega

/-- On a sorted list, dropping the prefix of elements smaller than `c` does
not change the multiplicity of any element that is at least `c`. -/
theorem count_dropWhile_sorted (l : List Nat) (c x : Nat)
    (hl : List.Sorted (· ≤ ·) l) (hx : c ≤ x) :
    (l.dropWhile (fun y => decide (y < c))).count x = l.count x := by
  induction l with
  | nil => rfl
  | cons a l ih =>
    by_cases ha : a < c
    · rw [List.dropWhile_cons_of_pos (by simpa using ha),
        ih ((List.sorted_cons.1 hl).2), count_cons_eq]
      have : ¬ x = a := by omega
      simp [this]
    · rw [List.dropWhile_cons_of_neg (by simpa using ha)]

/-- If the node of key `x :: xs` exists and holds words, `x` is at least
the subtree's lower bound. -/
theorem wAt_head_ge (p : Node) (lb : Nat) (h : OrdInv lb p)
    (x : Nat) (xs : List Nat) (hne : wAt p (x :: xs) ≠ []) : lb ≤ x := by
  cases p with
  | nil ws => exact absurd (wAt_nil_cons ws x xs) hne
  | node c f t ws =>
    rw [wAt_node_cons] at hne
    by_cases hxc : x < c
    · rw [if_pos hxc] at hne
      exact absurd rfl hne
    · have := h.1
      omega

theorem sub_rec_unfold_nil (ws : List Word) (q : List Nat) :
    subanagrams_of__rec (.nil ws) q = ws := by
  cases q <;> simp [subanagrams_of__rec]

theorem sub_rec_unfold_node_nil (c : Nat) (f t : Node) (ws : List Word) :
    subanagrams_of__rec (.node c f t ws) [] = ws := by
  simp [subanagrams_of__rec]

theorem sub_rec_unfold_node_cons (c : Nat) (f t : Node) (ws : List Word)
    (k : Nat) (ks : List Nat) :
    subanagrams_of__rec (.node c f t ws) (k :: ks) =
      if k < c then
        subanagrams_of__rec (.node c f t ws)
          (List.dropWhile (fun x => decide (x < c)) (k :: ks))
      else if c < k then
        unionW ws (subanagrams_of__rec f (k :: ks))
      else
        unionW (unionW ws (subanagrams_of__rec f ks))
          (subanagrams_of__rec t ks) := by
  simp [subanagrams_of__rec]

theorem wAt_node_head_not_lt (c : Nat) (f t : Node) (ws : List Word)
    (x : Nat) (xs : List Nat)
    (hne : wAt (.node c f t ws) (x :: xs) ≠ []) : ¬ x < c := by
  intro hxc
  rw [wAt_node_cons, if_pos hxc] at hne
  exact hne rfl

theorem count_cons_le_cons {d ks : List Nat} {c : Nat}
    (h : subMS d ks) : subMS (c :: d) (c :: ks) := by
  intro y
  rw [count_cons_eq, count_cons_eq]
  have hy := h y
  by_cases hyc : y = c
  · omega
  · omega

theorem subMS_of_cons_cons {xs ks : List Nat} {c : Nat}
    (h : subMS (c :: xs) (c :: ks)) : subMS xs ks := by
  intro y
  have hy := h y
  rw [count_cons_eq, count_cons_eq] at hy
  by_cases hyc : y = c
  · omega
  · omega

theorem subMS_cons_right {d ks : List Nat} {c : Nat}
    (h : subMS d ks) : subMS d (c :: ks) := by
  intro y
  have hy := h y
  rw [count_cons_eq]
  by_cases hyc : y = c
  · omega
  · omega

/-- Characterization of `subanagrams_of__rec` on trees satisfying the
ordering and word-placement invariants: a word is returned for sorted query
`q` exactly when it is stored at some key `d` that is a sub-multiset of
`q`. -/
theorem mem_sub_rec (p : Node) (q : List Nat) :
    ∀ lb, OrdInv lb p → WFC p → List.Sorted (· ≤ ·) q → ∀ w,
      (w ∈ subanagrams_of__rec p q ↔
        ∃ d, List.Sorted (· ≤ ·) d ∧ subMS d q ∧ w ∈ wAt (p : Node) d) := by
  induction p, q using subanagrams_of__rec.induct with
  | case1 ws q =>
    intro lb _ _ _ w
    rw [sub_rec_unfold_nil]
    constructor
    · intro hw
      exact ⟨[], List.sorted_nil, subMS_nil q, by rw [wAt_key_nil]; exact hw⟩
    · rintro ⟨d, hd, hsub, hw⟩
      cases d with
      | nil => rw [wAt_key_nil] at hw; exact hw
      | cons x xs => rw [wAt_nil_cons] at hw; cases hw
  | case2 c f t ws =>
    intro lb _ _ _ w
    rw [sub_rec_unfold_node_nil]
    constructor
    · intro hw
      exact ⟨[], List.sorted_nil, subMS_nil [], by rw [wAt_key_nil]; exact hw⟩
    · rintro ⟨d, hd, hsub, hw⟩
      cases d with
      | nil => rw [wAt_key_nil] at hw; exact hw
      | cons x xs =>
        have h1 := hsub x
        rw [count_cons_eq, if_pos rfl, List.count_nil] at h1
        omega
  | case3 c f t ws k ks hkc ih =>
    intro lb hInv hW hq w
    rw [sub_rec_unfold_node_cons, if_pos hkc]
    have hq' : List.Sorted (· ≤ ·)
        (List.dropWhile (fun x => decide (x < c)) (k :: ks)) :=
      List.Pairwise.sublist (List.dropWhile_sublist _) hq
    rw [ih lb hInv hW hq' w]
    constructor
    · rintro ⟨d, hd, hsub, hw⟩
      refine ⟨d, hd, ?_, hw⟩
      intro y
      exact le_trans (hsub y) ((List.dropWhile_sublist _).count_le y)
    · rintro ⟨d, hd, hsub, hw⟩
      refine ⟨d, hd, ?_, hw⟩
      cases d with
      | nil => exact subMS_nil _
      | cons x xs =>
        have hne : wAt (.node c f t ws) (x :: xs) ≠ [] := by
          intro hnil
          rw [hnil] at hw
          cases hw
        have hxc := wAt_node_head_not_lt c f t ws x xs hne
        have hall : ∀ z ∈ x :: xs, c ≤ z := sorted_forall_ge hd (by omega)
        intro y
        by_cases hyc : y < c
        · rw [count_eq_zero_of_forall_ge hall hyc]
          omega
        · rw [count_dropWhile_sorted _ c y hq (by omega)]
          exact hsub y
  | case4 c f t ws k ks hkc hck ih =>
    intro lb hInv hW hq w
    obtain ⟨h1, h2, h3⟩ := hInv
    obtain ⟨g1, g2, g3⟩ := hW
    rw [sub_rec_unfold_node_cons, if_neg hkc, if_pos hck]
    constructor
    · intro hw
      rcases mem_unionW.1 hw with hw | hw
      · exact ⟨[], List.sorted_nil, subMS_nil _, by rw [wAt_key_nil]; exact hw⟩
      · obtain ⟨d, hd, hsub, hwd⟩ := (ih (c + 1) h2 g2 hq w).1 hw
        cases d with
        | nil =>
          rw [wAt_key_nil, fwEmpty_words g1] at hwd
          cases hwd
        | cons x xs =>
          have hne : wAt f (x :: xs) ≠ [] := by
            intro hnil
            rw [hnil] at hwd
            cases hwd
          have hx := wAt_head_ge f (c + 1) h2 x xs hne
          refine ⟨x :: xs, hd, hsub, ?_⟩
          rw [wAt_node_cons, if_neg (by omega), if_pos (by omega)]
          exact hwd
    · rintro ⟨d, hd, hsub, hwd⟩
      cases d with
      | nil =>
        rw [wAt_key_nil] at hwd
        exact mem_unionW.2 (.inl hwd)
      | cons x xs =>
        have hne : wAt (.node c f t ws) (x :: xs) ≠ [] := by
          intro hnil
          rw [hnil] at hwd
          cases hwd
        have hxc := wAt_node_head_not_lt c f t ws x xs hne
        by_cases hcx : c < x
        · rw [wAt_node_cons, if_neg hxc, if_pos hcx] at hwd
          exact mem_unionW.2 (.inr ((ih (c + 1) h2 g2 hq w).2 ⟨x :: xs, hd, hsub, hwd⟩))
        · have hx : x = c := by omega
          subst hx
          have hcq : (k :: ks).count x = 0 := by
            rw [List.count_eq_zero]
            intro hmem
            have := sorted_forall_ge hq (le_refl k) x hmem
            omega
          have h4 := hsub x
          rw [count_cons_eq, if_pos rfl, hcq] at h4
          omega
  | case5 c f t ws k ks hkc hck ihf iht =>
    intro lb hInv hW hq w
    have hk : k = c := by omega
    subst hk
    obtain ⟨h1, h2, h3⟩ := hInv
    obtain ⟨g1, g2, g3⟩ := hW
    have hq' : List.Sorted (· ≤ ·) ks := (List.sorted_cons.1 hq).2
    rw [sub_rec_unfold_node_cons, if_neg hkc, if_neg hck]
    constructor
    · intro hw
      rcases mem_unionW.1 hw with hw | hw
      · rcases mem_unionW.1 hw with hw | hw
        · exact ⟨[], List.sorted_nil, subMS_nil _, by rw [wAt_key_nil]; exact hw⟩
        · obtain ⟨d, hd, hsub, hwd⟩ := (ihf (k + 1) h2 g2 hq' w).1 hw
          cases d with
          | nil =>
            rw [wAt_key_nil, fwEmpty_words g1] at hwd
            cases hwd
          | cons x xs =>
            have hne : wAt f (x :: xs) ≠ [] := by
              intro hnil
              rw [hnil] at hwd
              cases hwd
            have hx := wAt_head_ge f (k + 1) h2 x xs hne
            refine ⟨x :: xs, hd, subMS_cons_right hsub, ?_⟩
            rw [wAt_node_cons, if_neg (by omega), if_pos (by omega)]
            exact hwd
      · obtain ⟨d, hd, hsub, hwd⟩ := (iht k h3 g3 hq' w).1 hw
        refine ⟨k :: d, ?_, count_cons_le_cons hsub, ?_⟩
        · rw [List.sorted_cons]
          refine ⟨?_, hd⟩
          intro b hb
          cases d with
          | nil => cases hb
          | cons x xs =>
            have hne : wAt t (x :: xs) ≠ [] := by
              intro hnil
              rw [hnil] at hwd
              cases hwd
            have hx := wAt_head_ge t k h3 x xs hne
            exact sorted_forall_ge hd hx b hb
        · rw [wAt_node_cons, if_neg (lt_irrefl k), if_neg (lt_irrefl k)]
          exact hwd
    · rintro ⟨d, hd, hsub, hwd⟩
      cases d with
      | nil =>
        rw [wAt_key_nil] at hwd
        exact mem_unionW.2 (.inl (mem_unionW.2 (.inl hwd)))
      | cons x xs =>
        have hne : wAt (.node k f t ws) (x :: xs) ≠ [] := by
          intro hnil
          rw [hnil] at hwd
          cases hwd
        have hxc := wAt_node_head_not_lt k f t ws x xs hne
        by_cases hcx : k < x
        · rw [wAt_node_cons, if_neg hxc, if_pos hcx] at hwd
          have hsub' : subMS (x :: xs) ks := by
            intro y
            have hy := hsub y
            by_cases hyk : y = k
            · subst hyk
              rw [count_eq_zero_of_forall_ge
                (sorted_forall_ge hd (le_refl x)) (by omega)]
              omega
            · rw [count_cons_eq y k ks, if_neg hyk] at hy
              omega
          exact mem_unionW.2 (.inl (mem_unionW.2
            (.inr ((ihf (k + 1) h2 g2 hq' w).2 ⟨x :: xs, hd, hsub', hwd⟩))))
        · have hx : x = k := by omega
          subst hx
          rw [wAt_node_cons, if_neg hxc, if_neg hcx] at hwd
          exact mem_unionW.2 (.inr ((iht x h3 g3 hq' w).2
            ⟨xs, (List.sorted_cons.1 hd).2, subMS_of_cons_cons hsub, hwd⟩))

/-- C3: sub-anagram query correctness: `subanagrams_of q` returns exactly
the stored words whose key is a sub-multiset of `sorted_word q`; in
particular it contains all of `anagrams_of q`. -/
theorem C3_subanagram_correctness (ws : List Word) (q : Word) :
    (∀ w, w ∈ (treeOf ws).subanagrams_of q ↔
      (w ∈ ws ∧ subMS (sorted_word w) (sorted_word q))) ∧
    (∀ v ∈ (treeOf ws).anagrams_of q, v ∈ (treeOf ws).subanagrams_of q) := by
  have hmain : ∀ w, w ∈ (treeOf ws).subanagrams_of q ↔
      (w ∈ ws ∧ subMS (sorted_word w) (sorted_word q)) := by
    intro w
    show w ∈ subanagrams_of__rec (treeOf ws).m_root (sorted_word q) ↔ _
    rw [mem_sub_rec (treeOf ws).m_root (sorted_word q) 0 (OrdInv_treeOf ws)
      (WFC_treeOf ws) (sorted_word_sorted q) w]
    constructor
    · rintro ⟨d, hd, hsub, hw⟩
      obtain ⟨h1, h2⟩ := (mem_wAt_treeOf ws d w).1 hw
      subst h2
      exact ⟨h1, hsub⟩
    · rintro ⟨h1, h2⟩
      exact ⟨sorted_word w, sorted_word_sorted w, h2,
        (mem_wAt_treeOf ws (sorted_word w) w).2 ⟨h1, rfl⟩⟩
  refine ⟨hmain, ?_⟩
  intro v hv
  rw [anagrams_of_eq_wAt] at hv
  obtain ⟨h1, h2⟩ := (mem_wAt_treeOf ws (sorted_word q) v).1 hv
  refine (hmain v).2 ⟨h1, ?_⟩
  rw [h2]
  intro x
  exact le_refl _

/-- Concrete tree: inserting `[1]` then `[1,2]`. -/
theorem tree1_12_root :
    (treeOf [[1], [1, 2]]).m_root =
      .node 1 (.nil []) (.node 2 (.nil []) (.nil [[1, 2]]) [[1]]) [] := by
  show (insert__rec [1, 2]
      (insert__rec [1] (.nil []) (sorted_word [1])).root (sorted_word [1, 2])).root = _
  have h1 : sorted_word [1] = [1] := by decide
  have h2 : sorted_word [1, 2] = [1, 2] := by decide
  rw [h1, h2, insert_rec_nil_cons, insert_rec_key_nil]
  show (insert__rec [1, 2] (.node 1 (.nil []) (.nil [[1]]) []) [1, 2]).root = _
  rw [insert_rec_node_cons, if_neg (by omega), if_neg (by omega),
    insert_rec_nil_cons, insert_rec_key_nil]
  rfl

/-- C3 witness: in the tree holding `[1]` and `[1,2]`, the anagram
`[1,2]` of the query `[2,1]` is among its sub-anagrams, and the
characterization holds at `[1]`. -/
theorem C3_subanagram_correctness_witness :
    [1, 2] ∈ (treeOf [[1], [1, 2]]).subanagrams_of [2, 1] :=
  (C3_subanagram_correctness [[1], [1, 2]] [2, 1]).2 [1, 2] (by
    rw [anagrams_of_eq_wAt, tree1_12_root]
    have h2 : sorted_word [2, 1] = [1, 2] := by decide
    rw [h2]
    unfold wAt
    rw [find_node_node, if_neg (by omega), if_neg (by omega),
      find_node_node, if_neg (by omega), if_neg (by omega), find_node_key_nil]
    simp [Node.words])

/-- Concrete tree: inserting `[2]` then `[1,2,3]` (the word `"b"` then
`"abc"`): the second insert puts a new node with symbol `1` in front of the
old root. -/
theorem tree2_123_root :
    (treeOf [[2], [1, 2, 3]]).m_root =
      .node 1 (.node 2 (.nil []) (.nil [[2]]) [])
        (.node 2 (.nil []) (.node 3 (.nil []) (.nil [[1, 2, 3]]) []) []) [] := by
  show (insert__rec [1, 2, 3]
      (insert__rec [2] (.nil []) (sorted_word [2])).root (sorted_word [1, 2, 3])).root = _
  have h1 : sorted_word [2] = [2] := by decide
  have h2 : sorted_word [1, 2, 3] = [1, 2, 3] := by decide
  rw [h1, h2, insert_rec_nil_cons, insert_rec_key_nil]
  show (insert__rec [1, 2, 3] (.node 2 (.nil []) (.nil [[2]]) []) [1, 2, 3]).root = _
  rw [insert_rec_node_cons, if_pos (by omega), insert_rec_nil_cons,
    insert_rec_nil_cons, insert_rec_key_nil]
  rfl

/-- C2: `keys()` is not minimal: with `"b"` (= `[2]`) and `"abc"`
(= `[1,2,3]`) inserted, `keys()` returns both words, although `[2]` is a
strict sub-anagram of `[1,2,3]` (its key is a strict sub-multiset, and it
is reported by `subanagrams_of [1,2,3]`).  The superseded check of
`keys__rec` only fires when both scans are exhausted
(`false_idx < 0 && true_idx < 0`), so a true-side entry with leftover
larger symbols never supersedes. -/
theorem C2_keys_returns_strict_subanagram :
    [2] ∈ (treeOf [[2], [1, 2, 3]]).keys ∧
    [1, 2, 3] ∈ (treeOf [[2], [1, 2, 3]]).keys ∧
    subMS (sorted_word [2]) (sorted_word [1, 2, 3]) ∧
    sorted_word [2] ≠ sorted_word [1, 2, 3] ∧
    [2] ∈ (treeOf [[2], [1, 2, 3]]).subanagrams_of [1, 2, 3] := by
  refine ⟨?_, ?_, by decide, by decide, ?_⟩
  · show [2] ∈ Anatree.keys (treeOf [[2], [1, 2, 3]])
    unfold Anatree.keys
    rw [tree2_123_root]
    decide
  · show [1, 2, 3] ∈ Anatree.keys (treeOf [[2], [1, 2, 3]])
    unfold Anatree.keys
    rw [tree2_123_root]
    decide
  · show [2] ∈ subanagrams_of__rec (treeOf [[2], [1, 2, 3]]).m_root
      (sorted_word [1, 2, 3])
    rw [mem_sub_rec _ _ 0 (OrdInv_treeOf _) (WFC_treeOf _)
      (sorted_word_sorted _) [2]]
    refine ⟨[2], by decide, by decide, ?_⟩
    exact (mem_wAt_treeOf [[2], [1, 2, 3]] [2] [2]).2 ⟨by simp, by decide⟩
